import Mathlib

/-!
Verification of the hebrew_calendar engine (`src/moon.py`) against its
natural-language specification.

The engine is embedded shallowly:

* A Python `datetime` is `PyDateTime`: a calendar date (as a day number,
  `day : ℤ`, e.g. days since the Unix epoch) together with a time of day in
  whole seconds (`sec`) and a microsecond component (`micro`).
  `get_moon_phase` formats its input with `strftime('%Y-%m-%d %H:%M:%S')`,
  so the underlying ephemeris is queried at whole-second precision; this is
  reflected by querying the model with `(day, sec)` only.
* The astropy ephemeris (`get_body`/`separation`) is external to the
  repository; it is modelled as a parameter `M : ℤ → ℕ → ℚ` giving the
  moon-sun separation angle in degrees at a (day, second) instant.
  Likewise the equinox finders (which query astropy's solar position) are
  modelled as parameters giving an equinox date per year.
* Python dicts are association lists `List (ℤ × α)` in insertion order;
  assignment `d[k] = v` is `dinsert`, which updates an existing key in
  place and otherwise appends.
* `sorted(...)` is `List.insertionSort (· ≤ ·)`.
-/

/-- A Python `datetime.datetime`: a calendar day number plus a time of day
in whole seconds and a microsecond component. -/
structure PyDateTime where
  day : ℤ
  sec : ℕ
  micro : ℕ
  deriving DecidableEq, Repr

/-- The eight phase names, in the order of the `if`/`elif` chain of
`get_moon_phase` (src/moon.py lines 24-39). -/
def phase_names : List String :=
  ["New Moon", "Waxing Crescent", "First Quarter", "Waxing Gibbous",
   "Full Moon", "Waning Gibbous", "Third Quarter", "Waning Crescent"]

/-- The angle-to-phase-name classification of `get_moon_phase`
(src/moon.py lines 24-39): `phase_angle <= 12.0` is `'New Moon'`, then the
`elif phase_angle < ...` chain. -/
def classify (a : ℚ) : String :=
  if a ≤ 12 then "New Moon"
  else if a < 60 then "Waxing Crescent"
  else if a < 110 then "First Quarter"
  else if a < 160 then "Waxing Gibbous"
  else if a < 210 then "Full Moon"
  else if a < 260 then "Waning Gibbous"
  else if a < 310 then "Third Quarter"
  else "Waning Crescent"

/-- `get_moon_phase(date_obs)` (src/moon.py lines 12-41): queries the
ephemeris model `M` at the instant it is passed (formatted to whole
seconds, dropping microseconds) and returns the pair
`(phase name, separation angle)`.  Note that `get_moon_phase` itself does
not normalize the time of day; its engine callers do, via `_at_noon`. -/
def get_moon_phase (M : ℤ → ℕ → ℚ) (t : PyDateTime) : String × ℚ :=
  (classify (M t.day t.sec), M t.day t.sec)

/-- `_at_noon(d)` (src/moon.py lines 208-210): same date with
`hour=12, minute=0, second=0, microsecond=0`. -/
def at_noon (t : PyDateTime) : PyDateTime :=
  { day := t.day, sec := 12 * 3600, micro := 0 }

/-- Day number of a proleptic-Gregorian calendar date (days since
1970-01-01), for positive years; the standard civil-from-date algorithm.
Used to give the concrete dates appearing in the spec scenarios their real
calendar meaning. -/
def days_from_civil (y m d : ℕ) : ℤ :=
  let y2 := if m ≤ 2 then y - 1 else y
  let era := y2 / 400
  let yoe := y2 % 400
  let mp := (m + 9) % 12
  let doy := (153 * mp + 2) / 5 + d - 1
  let doe := yoe * 365 + yoe / 4 - yoe / 100 + doy
  (era * 146097 + doe : ℤ) - 719468

example : days_from_civil 1970 1 1 = 0 := by decide
example : days_from_civil 2024 3 1 - days_from_civil 2024 2 29 = 1 := by decide
example : days_from_civil 2024 2 29 - days_from_civil 2024 2 28 = 1 := by decide
example : days_from_civil 2024 3 22 - days_from_civil 2024 3 9 = 13 := by decide
example : days_from_civil 2025 1 1 - days_from_civil 2024 1 1 = 366 := by decide

/-- C1: for every ephemeris model and every input instant, `get_moon_phase`
returns a pair (phase name, angle) whose name is one of the eight buckets;
the name is `"New Moon"` exactly when the angle is at most 12 degrees; and
on `[0, 360)` the eight buckets are assigned by the stated non-overlapping
angle bands covering the whole range (each name holds exactly on its band,
so the bands partition `[0, 360)`).  The function is total: it always
returns a value. -/
theorem get_moon_phase_buckets (M : ℤ → ℕ → ℚ) (t : PyDateTime)
    (h0 : 0 ≤ (get_moon_phase M t).2) (h360 : (get_moon_phase M t).2 < 360) :
    (get_moon_phase M t).1 ∈ phase_names ∧
    ((get_moon_phase M t).1 = "New Moon" ↔ (get_moon_phase M t).2 ≤ 12) ∧
    ((get_moon_phase M t).1 = "Waxing Crescent" ↔
      12 < (get_moon_phase M t).2 ∧ (get_moon_phase M t).2 < 60) ∧
    ((get_moon_phase M t).1 = "First Quarter" ↔
      60 ≤ (get_moon_phase M t).2 ∧ (get_moon_phase M t).2 < 110) ∧
    ((get_moon_phase M t).1 = "Waxing Gibbous" ↔
      110 ≤ (get_moon_phase M t).2 ∧ (get_moon_phase M t).2 < 160) ∧
    ((get_moon_phase M t).1 = "Full Moon" ↔
      160 ≤ (get_moon_phase M t).2 ∧ (get_moon_phase M t).2 < 210) ∧
    ((get_moon_phase M t).1 = "Waning Gibbous" ↔
      210 ≤ (get_moon_phase M t).2 ∧ (get_moon_phase M t).2 < 260) ∧
    ((get_moon_phase M t).1 = "Third Quarter" ↔
      260 ≤ (get_moon_phase M t).2 ∧ (get_moon_phase M t).2 < 310) ∧
    ((get_moon_phase M t).1 = "Waning Crescent" ↔ 310 ≤ (get_moon_phase M t).2) := by
  have hpair : get_moon_phase M t = (classify (M t.day t.sec), M t.day t.sec) := rfl
  rw [hpair] at h0 h360 ⊢
  simp only at h0 h360 ⊢
  set a := M t.day t.sec with ha
  unfold classify
  split_ifs with h1 h2 h3 h4 h5 h6 h7 <;>
    refine ⟨by decide, ?_, ?_, ?_, ?_, ?_, ?_, ?_, ?_⟩ <;>
    constructor <;>
    intro hx <;>
    first
      | rfl
      | (exact absurd hx (by decide))
      | (exact hx.elim)
      | linarith
      | (constructor <;> linarith)

/-- Witness for C1 at a concrete model and instant. -/
theorem get_moon_phase_buckets_witness :
    (0 : ℚ) ≤ (get_moon_phase (fun _ _ => 5) ⟨0, 0, 0⟩).2 ∧
    (get_moon_phase (fun _ _ => 5) ⟨0, 0, 0⟩).2 < 360 ∧
    ((get_moon_phase (fun _ _ => 5) ⟨0, 0, 0⟩).1 = "New Moon" ↔
      (get_moon_phase (fun _ _ => 5) ⟨0, 0, 0⟩).2 ≤ 12) :=
  ⟨by decide, by decide,
    (get_moon_phase_buckets (fun _ _ => 5) ⟨0, 0, 0⟩ (by decide) (by decide)).2.1⟩

/-- C2 counterexample: `get_moon_phase` itself does not normalize its input
to noon — it queries the ephemeris at the instant it is given (src/moon.py
line 14 formats `date_obs` with its original time).  With an ephemeris
whose angle differs between 00:00:00 and 01:00:00 of the same calendar
date, the two calls return different (phase, angle) pairs, so the claim
"same calendar date, any time-of-day, same result" is false as stated. -/
theorem get_moon_phase_not_time_invariant :
    get_moon_phase (fun _ s => if s = 0 then 0 else 100) ⟨0, 0, 0⟩ ≠
      get_moon_phase (fun _ s => if s = 0 then 0 else 100) ⟨0, 3600, 0⟩ := by
  decide

/-- C2 (amended): the noon normalization happens at the engine call sites,
which invoke `get_moon_phase(_at_noon(...))` (src/moon.py lines 190, 194,
302, 309).  For every ephemeris model, that composition gives the same
(phase name, angle) result for any two time-of-day components (seconds and
microseconds) attached to the same calendar date. -/
theorem get_moon_phase_at_noon_time_invariant (M : ℤ → ℕ → ℚ) (d : ℤ)
    (t1 t2 m1 m2 : ℕ) :
    get_moon_phase M (at_noon ⟨d, t1, m1⟩) = get_moon_phase M (at_noon ⟨d, t2, m2⟩) :=
  rfl

/-- Keys of a Python dict modelled as an association list. -/
def keys {α : Type} (m : List (ℤ × α)) : List ℤ :=
  m.map Prod.fst

/-- Python dict assignment `d[k] = v`: update an existing key in place
(keeping its position), otherwise append the new pair. -/
def dinsert {α : Type} (k : ℤ) (v : α) : List (ℤ × α) → List (ℤ × α)
  | [] => [(k, v)]
  | p :: rest => if p.1 = k then (k, v) :: rest else p :: dinsert k v rest

theorem keys_cons {α : Type} (p : ℤ × α) (l : List (ℤ × α)) :
    keys (p :: l) = p.1 :: keys l :=
  rfl

theorem keys_dinsert_of_mem {α : Type} {k : ℤ} (v : α) {m : List (ℤ × α)}
    (h : k ∈ keys m) : keys (dinsert k v m) = keys m := by
  induction m with
  | nil => simp [keys] at h
  | cons p rest ih =>
    rw [keys_cons] at h
    by_cases hp : p.1 = k
    · simp only [dinsert]
      rw [if_pos hp, keys_cons, keys_cons, hp]
    · have hk : k ∈ keys rest := by
        rcases List.mem_cons.mp h with h1 | h1
        · exact absurd h1.symm hp
        · exact h1
      simp only [dinsert, if_neg hp, keys_cons, ih hk]

theorem dinsert_of_not_mem {α : Type} {k : ℤ} (v : α) {m : List (ℤ × α)}
    (h : k ∉ keys m) : dinsert k v m = m ++ [(k, v)] := by
  induction m with
  | nil => rfl
  | cons p rest ih =>
    rw [keys_cons] at h
    have hp : p.1 ≠ k := fun he => h (by rw [he]; exact List.mem_cons_self _ _)
    have hk : k ∉ keys rest := fun hm => h (List.mem_cons_of_mem _ hm)
    simp only [dinsert, if_neg hp, ih hk, List.cons_append]

theorem mem_keys_dinsert {α : Type} (k : ℤ) (v : α) (m : List (ℤ × α)) (x : ℤ) :
    x ∈ keys (dinsert k v m) ↔ x = k ∨ x ∈ keys m := by
  induction m with
  | nil => simp [dinsert, keys]
  | cons p rest ih =>
    by_cases hp : p.1 = k
    · simp only [dinsert]
      rw [if_pos hp, keys_cons, keys_cons]
      simp only [List.mem_cons]
      rw [hp]
      tauto
    · simp only [dinsert, if_neg hp, keys_cons, List.mem_cons, ih]
      tauto

/-- The backward walk of `enumerate_new_moons` (src/moon.py lines 304-314):
starting from a day classified `'New Moon'`, step back one day at a time
while the previous day is also `'New Moon'`, never stepping back past the
start of the requested range.  `A` is the noon separation-angle model for
a calendar day; the fuel argument is the distance to the range start,
which bounds the walk exactly as `while first_day > start_date` does. -/
def btrackAux (A : ℤ → ℚ) : ℕ → ℤ → ℤ
  | 0, d => d
  | n + 1, d => if classify (A (d - 1)) = "New Moon" then btrackAux A n (d - 1) else d

def btrack (A : ℤ → ℚ) (s d : ℤ) : ℤ :=
  btrackAux A (d - s).toNat d

theorem btrackAux_le (A : ℤ → ℚ) : ∀ (n : ℕ) (d : ℤ), btrackAux A n d ≤ d := by
  intro n
  induction n with
  | zero => intro d; exact le_refl d
  | succ n ih =>
    intro d
    simp only [btrackAux]
    split_ifs with h
    · exact le_trans (ih (d - 1)) (by omega)
    · exact le_refl d

theorem btrackAux_ge (A : ℤ → ℚ) : ∀ (n : ℕ) (d : ℤ), d - n ≤ btrackAux A n d := by
  intro n
  induction n with
  | zero => intro d; simp [btrackAux]
  | succ n ih =>
    intro d
    simp only [btrackAux]
    split_ifs with h
    · have := ih (d - 1)
      push_cast at this ⊢
      omega
    · push_cast
      omega

theorem btrack_ge (A : ℤ → ℚ) {s d : ℤ} (h : s ≤ d) : s ≤ btrack A s d := by
  show s ≤ btrackAux A (d - s).toNat d
  have := btrackAux_ge A (d - s).toNat d
  rw [Int.toNat_of_nonneg (by omega)] at this
  omega

theorem btrack_le (A : ℤ → ℚ) (s d : ℤ) : btrack A s d ≤ d :=
  btrackAux_le A _ d

theorem btrackAux_stop (A : ℤ → ℚ) : ∀ (n : ℕ) (d : ℤ),
    btrackAux A n d = d - n ∨ classify (A (btrackAux A n d - 1)) ≠ "New Moon" := by
  intro n
  induction n with
  | zero => intro d; left; simp [btrackAux]
  | succ n ih =>
    intro d
    simp only [btrackAux]
    split_ifs with h
    · rcases ih (d - 1) with h1 | h1
      · left; rw [h1]; push_cast; ring
      · right; exact h1
    · right; simpa using h

theorem btrack_stop (A : ℤ → ℚ) {s d : ℤ} (h : s ≤ d) :
    btrack A s d = s ∨ classify (A (btrack A s d - 1)) ≠ "New Moon" := by
  rcases btrackAux_stop A (d - s).toNat d with h1 | h1
  · left
    rw [btrack, h1, Int.toNat_of_nonneg (by omega)]
    ring
  · right; exact h1

theorem btrackAux_new_moon (A : ℤ → ℚ) : ∀ (n : ℕ) (d x : ℤ),
    classify (A d) = "New Moon" → btrackAux A n d ≤ x → x ≤ d →
    classify (A x) = "New Moon" := by
  intro n
  induction n with
  | zero =>
    intro d x hd h1 h2
    have : x = d := le_antisymm h2 (by simpa [btrackAux] using h1)
    rw [this]; exact hd
  | succ n ih =>
    intro d x hd h1 h2
    simp only [btrackAux] at h1
    split_ifs at h1 with h
    · rcases eq_or_lt_of_le h2 with he | hlt
      · rw [he]; exact hd
      · exact ih (d - 1) x h h1 (by omega)
    · have : x = d := le_antisymm h2 (by omega)
      rw [this]; exact hd

theorem btrack_new_moon (A : ℤ → ℚ) {s d x : ℤ}
    (hd : classify (A d) = "New Moon") (h1 : btrack A s d ≤ x) (h2 : x ≤ d) :
    classify (A x) = "New Moon" :=
  btrackAux_new_moon A _ d x hd h1 h2

theorem mem_of_getLast?_eq {α : Type} : ∀ {l : List α} {a : α},
    l.getLast? = some a → a ∈ l
  | [], _, h => by simp at h
  | [x], a, h => by simp_all
  | x :: y :: l, a, h => by
    rw [List.getLast?_cons_cons] at h
    exact List.mem_cons_of_mem x (mem_of_getLast?_eq h)

theorem le_getLast?_of_chain : ∀ {l : List ℤ} {L x : ℤ},
    List.Chain' (· < ·) l → l.getLast? = some L → x ∈ l → x ≤ L := by
  intro l
  induction l with
  | nil => intro L x _ _ hx; simp at hx
  | cons a l ih =>
    intro L x hc hl hx
    cases l with
    | nil =>
      simp at hl hx
      omega
    | cons b l' =>
      rw [List.chain'_cons] at hc
      rw [List.getLast?_cons_cons] at hl
      rcases List.mem_cons.mp hx with hx | hx
      · have hb : b ≤ L := ih hc.2 hl (List.mem_cons_self _ _)
        omega
      · exact ih hc.2 hl hx

/-- The day-stepping scan of `enumerate_new_moons` (src/moon.py lines
296-323), with explicit fuel.  `A` is the noon separation-angle model for
a calendar day.  On a `'New Moon'` day it walks back to the first day of
the run (`btrack`), records that day with its angle in the result dict,
and jumps the cursor 29 days past it; otherwise the cursor advances one
day.  When fuel runs out, the (partial) accumulated dict is returned. -/
def scanAux (A : ℤ → ℚ) (s e : ℤ) : ℕ → ℤ → List (ℤ × ℚ) → List (ℤ × ℚ)
  | 0, _, acc => acc
  | n + 1, c, acc =>
    if c ≤ e then
      if classify (A c) = "New Moon" then
        scanAux A s e n (btrack A s c + 29) (dinsert (btrack A s c) (A (btrack A s c)) acc)
      else
        scanAux A s e n (c + 1) acc
    else
      acc

/-- `enumerate_new_moons(start_date, end_date)` (src/moon.py lines
294-323) as a function of the noon separation-angle model `A`, with fuel
bounding the number of loop iterations. -/
def enumerate_new_moons (A : ℤ → ℚ) (s e : ℤ) (fuel : ℕ) : List (ℤ × ℚ) :=
  scanAux A s e fuel s []

theorem scanAux_chain (A : ℤ → ℚ) (s e : ℤ) : ∀ (n : ℕ) (c : ℤ) (acc : List (ℤ × ℚ)),
    s ≤ c →
    List.Chain' (· < ·) (keys acc) →
    (∀ L, (keys acc).getLast? = some L →
      s ≤ L ∧ (L = s ∨ classify (A (L - 1)) ≠ "New Moon") ∧ L ≤ c) →
    List.Chain' (· < ·) (keys (scanAux A s e n c acc)) := by
  intro n
  induction n with
  | zero => intro c acc _ hchain _; exact hchain
  | succ n ih =>
    intro c acc hsc hchain hinv
    simp only [scanAux]
    split_ifs with hce hnm
    · -- a 'New Moon' day: record the first day of its run
      have hfd_ge : s ≤ btrack A s c := btrack_ge A hsc
      have hfd_le : btrack A s c ≤ c := btrack_le A s c
      have hfd_stop := btrack_stop A hsc
      rcases hlast : (keys acc).getLast? with _ | L
      · -- empty accumulator
        have hempty : keys acc = [] := List.getLast?_eq_none_iff.mp hlast
        have hacc : acc = [] := by
          cases acc with
          | nil => rfl
          | cons p r => simp [keys] at hempty
        subst hacc
        refine ih _ _ (by omega) ?_ ?_
        · simp [dinsert, keys]
        · intro L' hL'
          simp [dinsert, keys] at hL'
          refine ⟨hL' ▸ hfd_ge, ?_, by omega⟩
          rcases hfd_stop with h1 | h1
          · exact Or.inl (hL' ▸ h1)
          · exact Or.inr (hL' ▸ h1)
      · obtain ⟨hLs, hLstop, hLc⟩ := hinv L hlast
        have hLfd : L ≤ btrack A s c := by
          by_contra hlt
          push_neg at hlt
          rcases hLstop with h1 | h1
          · omega
          · exact h1 (btrack_new_moon (A := A) (s := s) hnm (by omega) (by omega))
        rcases eq_or_lt_of_le hLfd with heq | hgt
        · -- the run reaches back to the last recorded day: dict overwrite
          have hmem : btrack A s c ∈ keys acc := heq ▸ mem_of_getLast?_eq hlast
          refine ih _ _ (by omega) ?_ ?_
          · rwa [keys_dinsert_of_mem _ hmem]
          · intro L' hL'
            rw [keys_dinsert_of_mem _ hmem] at hL'
            rw [hlast] at hL'
            obtain rfl : L = L' := by injection hL'
            exact ⟨hLs, hLstop, by omega⟩
        · -- a strictly later day: appended at the end of the dict
          have hnotmem : btrack A s c ∉ keys acc := fun hm =>
            absurd (le_getLast?_of_chain hchain hlast hm) (by omega)
          have hkeys : keys (dinsert (btrack A s c) (A (btrack A s c)) acc) =
              keys acc ++ [btrack A s c] := by
            rw [dinsert_of_not_mem _ hnotmem]
            simp [keys]
          refine ih _ _ (by omega) ?_ ?_
          · rw [hkeys]
            rw [List.chain'_append]
            refine ⟨hchain, List.chain'_singleton _, ?_⟩
            intro x hx y hy
            simp at hy
            rw [hlast] at hx
            simp at hx
            omega
          · intro L' hL'
            rw [hkeys, List.getLast?_concat] at hL'
            obtain rfl : btrack A s c = L' := by injection hL'
            refine ⟨hfd_ge, ?_, by omega⟩
            exact hfd_stop
    · -- not a new-moon day: step one day forward
      refine ih _ _ (by omega) hchain ?_
      intro L hL
      obtain ⟨h1, h2, h3⟩ := hinv L hL
      exact ⟨h1, h2, by omega⟩
    · exact hchain

/-- C3 (amended): for every separation-angle model, every range and any
fuel, the new-moon dates recorded by `enumerate_new_moons` are strictly
increasing (the keys of the returned dict form a strictly ascending
chain).  The 29-30-day bound on consecutive gaps is a property of the
astronomical ephemeris, not of the scan: see the counterexample. -/
theorem enumerate_new_moons_strict_mono (A : ℤ → ℚ) (s e : ℤ) (fuel : ℕ) :
    List.Chain' (· < ·) (keys (enumerate_new_moons A s e fuel)) := by
  refine scanAux_chain A s e fuel s [] (le_refl s) ?_ ?_
  · simp [keys]
  · intro L hL
    simp [keys] at hL

/-- A synthetic separation-angle model whose only low-angle (new moon)
days are day 0 and day 60. -/
def two_moon_model : ℤ → ℚ :=
  fun d => if d = 0 ∨ d = 60 then 0 else 100

/-- C3 counterexample: with a separation-angle model whose new-moon days
are 0 and 60 only, scanning the range [0, 70] records the dates 0 and 60,
whose gap is 60 days — outside the claimed [29, 30] interval.  The gap
bound therefore does not hold for every input to `enumerate_new_moons`;
it depends on the ephemeris supplying synodic-month-spaced new moons. -/
theorem enumerate_new_moons_gap_counterexample :
    (0 : ℤ) ≤ 70 ∧
    keys (enumerate_new_moons two_moon_model 0 70 200) = [0, 60] ∧
    ¬((60 : ℤ) - 0 ≤ 30) := by
  refine ⟨by decide, by decide, by decide⟩

/-- The Sabbath dates strictly between a month's opening new moon
`last_sabbath` and the next new moon `nm` (src/moon.py lines 333-334):
`[last_sabbath + i for i in range(7, (nm - last_sabbath).days, 7)]`. -/
def sabbaths_between (last nm : ℤ) : List ℤ :=
  (List.range ((nm - last - 1).toNat / 7)).map (fun i : ℕ => last + 7 * ((i : ℤ) + 1))

/-- `fn(nms, nm)` (src/moon.py lines 330-335): extend the accumulated
Sabbath list by the weekly Sabbaths after its last entry (the previous
new moon) and then the next new moon itself.  The `nms[-1]` access is
total here because the fold seeds the accumulator with the first new
moon. -/
def fn (nms : List ℤ) (nm : ℤ) : List ℤ :=
  nms ++ sabbaths_between (nms.getLast?.getD 0) nm ++ [nm]

/-- `enumerate_sabbaths(new_moons)` (src/moon.py lines 326-328):
`reduce(fn, new_moons[1:], [new_moons[0]])`.  On the empty list the
Python code raises an `IndexError` at `new_moons[0]`; this is modelled as
`none`. -/
def enumerate_sabbaths : List ℤ → Option (List ℤ)
  | [] => none
  | m :: rest => some (rest.foldl fn [m])

theorem mem_sabbaths_between (last nm x : ℤ) :
    x ∈ sabbaths_between last nm ↔ ∃ k : ℕ, 1 ≤ k ∧ x = last + 7 * k ∧ x < nm := by
  rw [sabbaths_between]
  constructor
  · intro hx
    obtain ⟨i, hi, hfi⟩ := List.mem_map.mp hx
    rw [List.mem_range] at hi
    have h2 : (i + 1) ≤ (nm - last - 1).toNat / 7 := hi
    have h3 : (i + 1) * 7 ≤ (nm - last - 1).toNat := (Nat.le_div_iff_mul_le (by omega)).mp h2
    exact ⟨i + 1, by omega, by push_cast [← hfi]; ring, by omega⟩
  · rintro ⟨k, hk1, rfl, hlt⟩
    have h3 : k * 7 ≤ (nm - last - 1).toNat := by omega
    have h4 : k ≤ (nm - last - 1).toNat / 7 := (Nat.le_div_iff_mul_le (by omega)).mpr h3
    refine List.mem_map.mpr ⟨k - 1, List.mem_range.mpr (by omega), by
      have : ((k - 1 : ℕ) : ℤ) = (k : ℤ) - 1 := by omega
      rw [this]; ring⟩

/-- Unfolded shape of the Sabbath fold: for each further new moon, the
weekly Sabbaths since the previous one followed by the new moon itself. -/
def sab_spec (prev : ℤ) : List ℤ → List ℤ
  | [] => []
  | nm :: ms => sabbaths_between prev nm ++ [nm] ++ sab_spec nm ms

theorem getLast?_fn (nms : List ℤ) (nm : ℤ) : (fn nms nm).getLast? = some nm := by
  rw [fn, List.append_assoc, List.getLast?_append]
  simp

theorem foldl_fn_eq_sab_spec : ∀ (ms acc : List ℤ) (prev : ℤ),
    acc.getLast? = some prev →
    ms.foldl fn acc = acc ++ sab_spec prev ms := by
  intro ms
  induction ms with
  | nil => intro acc prev _; simp [sab_spec]
  | cons nm ms ih =>
    intro acc prev hprev
    have h1 : fn acc nm = acc ++ (sabbaths_between prev nm ++ [nm]) := by
      rw [fn, hprev, List.append_assoc]
      rfl
    calc (nm :: ms).foldl fn acc = ms.foldl fn (fn acc nm) := rfl
      _ = fn acc nm ++ sab_spec nm ms := ih (fn acc nm) nm (getLast?_fn acc nm)
      _ = acc ++ sab_spec prev (nm :: ms) := by
          rw [h1, sab_spec, List.append_assoc, List.append_assoc]

theorem mem_sab_spec : ∀ (ms : List ℤ) (prev x : ℤ),
    x ∈ sab_spec prev ms ↔
      x ∈ ms ∨ ∃ p ∈ (prev :: ms).zip ms, ∃ k : ℕ, 1 ≤ k ∧ x = p.1 + 7 * k ∧ x < p.2 := by
  intro ms
  induction ms with
  | nil => simp [sab_spec]
  | cons nm ms ih =>
    intro prev x
    have hL : x ∈ sab_spec prev (nm :: ms) ↔
        (x ∈ sabbaths_between prev nm ∨ x = nm) ∨ x ∈ sab_spec nm ms := by
      rw [sab_spec]
      simp only [List.mem_append, List.mem_singleton]
    rw [hL, mem_sabbaths_between, ih, List.zip_cons_cons]
    constructor
    · rintro ((h | rfl) | h)
      · exact Or.inr ⟨(prev, nm), List.mem_cons_self _ _, h⟩
      · exact Or.inl (List.mem_cons_self _ _)
      · rcases h with h | ⟨p, hp, hE⟩
        · exact Or.inl (List.mem_cons_of_mem _ h)
        · exact Or.inr ⟨p, List.mem_cons_of_mem _ hp, hE⟩
    · rintro (h | ⟨p, hp, hE⟩)
      · rcases List.mem_cons.mp h with rfl | h
        · exact Or.inl (Or.inr rfl)
        · exact Or.inr (Or.inl h)
      · rcases List.mem_cons.mp hp with rfl | hp
        · exact Or.inl (Or.inl hE)
        · exact Or.inr (Or.inr ⟨p, hp, hE⟩)

/-- C9: for every non-empty, strictly increasing list of new-moon dates,
`enumerate_sabbaths` succeeds, its output contains every new moon of the
input, and between each pair of consecutive new moons `m, m'` it contains
additionally exactly the dates `m + 7k` (`k ≥ 1`) strictly earlier than
`m'`: membership in the output is equivalent to that description. -/
theorem enumerate_sabbaths_mem (l out : List ℤ) (x : ℤ)
    (hne : l ≠ []) (hsorted : List.Chain' (· < ·) l)
    (hout : enumerate_sabbaths l = some out) :
    x ∈ out ↔
      x ∈ l ∨ ∃ p ∈ l.zip l.tail, ∃ k : ℕ, 1 ≤ k ∧ x = p.1 + 7 * k ∧ x < p.2 := by
  cases l with
  | nil => exact absurd rfl hne
  | cons m rest =>
    have hout' : out = rest.foldl fn [m] := by
      rw [enumerate_sabbaths] at hout
      injection hout with h
      exact h.symm
    rw [hout', foldl_fn_eq_sab_spec rest [m] m (by simp)]
    simp only [List.singleton_append, List.mem_cons, List.tail_cons, mem_sab_spec]
    tauto

/-- Witness for C9: with new moons on days 0 and 30, the Sabbath list is
`[0, 7, 14, 21, 28, 30]`, and 14 is in it because `14 = 0 + 7·2 < 30`. -/
theorem enumerate_sabbaths_mem_witness :
    (14 : ℤ) ∈ [(0 : ℤ), 7, 14, 21, 28, 30] ↔
      (14 : ℤ) ∈ [(0 : ℤ), 30] ∨
        ∃ p ∈ ([(0 : ℤ), 30]).zip ([(0 : ℤ), 30]).tail,
          ∃ k : ℕ, 1 ≤ k ∧ (14 : ℤ) = p.1 + 7 * k ∧ (14 : ℤ) < p.2 :=
  enumerate_sabbaths_mem [0, 30] [0, 7, 14, 21, 28, 30] 14 (by decide)
    (List.chain'_cons.mpr ⟨by norm_num, List.chain'_singleton _⟩) (by decide)

/-- C10: `enumerate_sabbaths` has a non-emptiness precondition: on the
empty new-moon list the `new_moons[0]` access raises (modelled as `none`),
and for every non-empty list it returns normally. -/
theorem enumerate_sabbaths_empty_raises :
    enumerate_sabbaths ([] : List ℤ) = none ∧
      ∀ l : List ℤ, l ≠ [] → (enumerate_sabbaths l).isSome := by
  refine ⟨rfl, ?_⟩
  intro l hl
  cases l with
  | nil => exact absurd rfl hl
  | cons m rest => simp [enumerate_sabbaths]

/-- Witness for C10 at concrete inputs. -/
theorem enumerate_sabbaths_empty_raises_witness :
    enumerate_sabbaths ([] : List ℤ) = none ∧ (enumerate_sabbaths [(3 : ℤ)]).isSome :=
  ⟨enumerate_sabbaths_empty_raises.1,
    enumerate_sabbaths_empty_raises.2 [3] (by decide)⟩

/-- The bracket search of `get_lunar_year_starts` (src/moon.py lines
262-270): walk the sorted moons, remembering the latest moon whose date
is strictly before the equinox; at the first moon not strictly before it,
that moon becomes the `after` candidate and the loop breaks. -/
def find_bracket (ve : ℤ) : List ℤ → Option ℤ → Option ℤ × Option ℤ
  | [], b => (b, none)
  | m :: rest, b => if m < ve then find_bracket ve rest (some m) else (b, some m)

/-- The per-year body of `get_lunar_year_starts` (src/moon.py lines
259-289): years with no new moon strictly before the vernal equinox are
skipped; otherwise the earlier candidate is kept when its Passover
(13 days later) is at most 20 days before the equinox, else the later
candidate (falling back to the earlier when there is none). -/
def year_start_for (sorted : List ℤ) (ve : ℤ) : Option ℤ :=
  match find_bracket ve sorted none with
  | (none, _) => none
  | (some b, a?) =>
    some (if ve - (b + 13) ≤ 20 then b
          else match a? with
               | some a => a
               | none => b)

/-- Python `range(start_year, end_year + 1)` as a list of years. -/
def years_list (sy ey : ℤ) : List ℤ :=
  (List.range (ey + 1 - sy).toNat).map (fun i : ℕ => sy + (i : ℤ))

/-- `get_lunar_year_starts(new_moons, start_year, end_year)` (src/moon.py
lines 243-291).  The astropy-backed `get_vernal_equinox` is modelled as
the parameter `VE : year → date`.  The input dict's keys are the list
`new_moons`; the result maps each non-skipped year to its Nisan 1 date. -/
def get_lunar_year_starts (VE : ℤ → ℤ) (new_moons : List ℤ) (sy ey : ℤ) :
    List (ℤ × ℤ) :=
  (years_list sy ey).foldl
    (fun acc y =>
      match year_start_for (List.insertionSort (· ≤ ·) new_moons) (VE y) with
      | none => acc
      | some d => dinsert y d acc)
    []

theorem mem_years_list (sy ey y : ℤ) : y ∈ years_list sy ey ↔ sy ≤ y ∧ y ≤ ey := by
  rw [years_list]
  constructor
  · intro h
    obtain ⟨i, hi, hfi⟩ := List.mem_map.mp h
    rw [List.mem_range] at hi
    omega
  · intro h
    refine List.mem_map.mpr ⟨(y - sy).toNat, List.mem_range.mpr (by omega), by omega⟩

theorem years_list_nodup (sy ey : ℤ) : (years_list sy ey).Nodup := by
  refine List.Nodup.map ?_ (List.nodup_range _)
  intro a b hab
  simp only at hab
  omega

theorem getLast?_cons_or {α : Type} (a : α) : ∀ l : List α,
    (a :: l).getLast? = l.getLast?.or (some a)
  | [] => rfl
  | b :: l' => by
    rw [List.getLast?_cons_cons]
    have hne : (b :: l').getLast? ≠ none := by
      rw [Ne, List.getLast?_eq_none_iff]
      simp
    obtain ⟨x, hx⟩ := Option.ne_none_iff_exists'.mp hne
    rw [hx]
    rfl

theorem or_some_or {α : Type} (x : Option α) (m : α) (b : Option α) :
    (x.or (some m)).or b = x.or (some m) := by
  cases x <;> rfl

theorem find_bracket_eq (ve : ℤ) : ∀ (l : List ℤ) (b0 : Option ℤ),
    List.Sorted (· ≤ ·) l →
    find_bracket ve l b0 =
      ((l.filter (fun m => decide (m < ve))).getLast?.or b0,
       (l.filter (fun m => ! decide (m < ve))).head?) := by
  intro l
  induction l with
  | nil =>
    intro b0 _
    cases b0 <;> rfl
  | cons m rest ih =>
    intro b0 hs
    rw [List.sorted_cons] at hs
    obtain ⟨hall, hrest⟩ := hs
    by_cases hm : m < ve
    · have hfl : (m :: rest).filter (fun x => decide (x < ve)) =
          m :: rest.filter (fun x => decide (x < ve)) := by
        simp [List.filter_cons, hm]
      have hfn : (m :: rest).filter (fun x => ! decide (x < ve)) =
          rest.filter (fun x => ! decide (x < ve)) := by
        simp [List.filter_cons, hm]
      simp only [find_bracket, if_pos hm]
      rw [ih (some m) hrest, hfl, hfn, getLast?_cons_or, or_some_or]
    · have hve : ve ≤ m := not_lt.mp hm
      have hfl : (m :: rest).filter (fun x => decide (x < ve)) = [] := by
        rw [List.filter_eq_nil_iff]
        intro a ha
        rcases List.mem_cons.mp ha with rfl | ha
        · simpa using hm
        · have := hall a ha
          simp only [decide_eq_true_eq]
          omega
      have hfn : (m :: rest).filter (fun x => ! decide (x < ve)) =
          m :: rest.filter (fun x => ! decide (x < ve)) := by
        simp [List.filter_cons, hm]
      simp only [find_bracket, if_neg hm]
      rw [hfl, hfn]
      cases b0 <;> rfl

theorem find_bracket_fst_mem (ve : ℤ) : ∀ (l : List ℤ) (b0 : Option ℤ) (b : ℤ),
    (find_bracket ve l b0).1 = some b → b0 = some b ∨ b ∈ l := by
  intro l
  induction l with
  | nil => intro b0 b h; exact Or.inl h
  | cons m rest ih =>
    intro b0 b h
    simp only [find_bracket] at h
    split_ifs at h with hm
    · rcases ih (some m) b h with h1 | h1
      · right
        exact List.mem_cons.mpr (Or.inl (by injection h1 with h2; exact h2.symm))
      · exact Or.inr (List.mem_cons_of_mem _ h1)
    · exact Or.inl h

theorem find_bracket_snd_mem (ve : ℤ) : ∀ (l : List ℤ) (b0 : Option ℤ) (a : ℤ),
    (find_bracket ve l b0).2 = some a → a ∈ l := by
  intro l
  induction l with
  | nil => intro b0 a h; simp [find_bracket] at h
  | cons m rest ih =>
    intro b0 a h
    simp only [find_bracket] at h
    split_ifs at h with hm
    · exact List.mem_cons_of_mem _ (ih (some m) a h)
    · exact List.mem_cons.mpr (Or.inl (by injection h with h2; exact h2.symm))

theorem find_bracket_fst_isSome_of_acc (ve : ℤ) : ∀ (l : List ℤ) (b : ℤ),
    (find_bracket ve l (some b)).1.isSome := by
  intro l
  induction l with
  | nil => intro b; rfl
  | cons m rest ih =>
    intro b
    simp only [find_bracket]
    split_ifs with hm
    · exact ih m
    · rfl

theorem find_bracket_fst_isSome_iff (ve : ℤ) : ∀ l : List ℤ,
    List.Sorted (· ≤ ·) l →
    ((find_bracket ve l none).1.isSome ↔ ∃ m ∈ l, m < ve) := by
  intro l
  induction l with
  | nil => intro _; simp [find_bracket]
  | cons m rest ih =>
    intro hs
    rw [List.sorted_cons] at hs
    obtain ⟨hall, hrest⟩ := hs
    simp only [find_bracket]
    split_ifs with hm
    · simp only [find_bracket_fst_isSome_of_acc, true_iff]
      exact ⟨m, List.mem_cons_self _ _, hm⟩
    · simp only [Option.isSome_none, Bool.false_eq_true, false_iff]
      rintro ⟨x, hx, hxve⟩
      rcases List.mem_cons.mp hx with rfl | hx
      · exact hm hxve
      · have := hall x hx
        omega

/-- The per-year fold of `get_lunar_year_starts` written as a `filterMap`
over the requested years (valid because the years are distinct). -/
theorem foldl_year_step_eq_filterMap (g : ℤ → Option ℤ) :
    ∀ (ys : List ℤ) (acc : List (ℤ × ℤ)),
    ys.Nodup → (∀ y ∈ ys, y ∉ keys acc) →
    (ys.foldl (fun acc y => match g y with
                            | none => acc
                            | some d => dinsert y d acc) acc) =
      acc ++ ys.filterMap (fun y => (g y).map (fun d => (y, d))) := by
  intro ys
  induction ys with
  | nil => intro acc _ _; simp
  | cons y ys ih =>
    intro acc hnd hdisj
    rw [List.nodup_cons] at hnd
    cases hg : g y with
    | none =>
      have h1 : (match g y with
                 | none => acc
                 | some d => dinsert y d acc) = acc := by rw [hg]
      have hfm : (y :: ys).filterMap (fun w => (g w).map (fun d => (w, d))) =
          ys.filterMap (fun w => (g w).map (fun d => (w, d))) := by
        rw [List.filterMap_cons, hg]
        rfl
      rw [List.foldl_cons, h1, hfm]
      exact ih acc hnd.2 (fun z hz => hdisj z (List.mem_cons_of_mem _ hz))
    | some d =>
      have h1 : (match g y with
                 | none => acc
                 | some d => dinsert y d acc) = dinsert y d acc := by rw [hg]
      have hfm : (y :: ys).filterMap (fun w => (g w).map (fun d => (w, d))) =
          (y, d) :: ys.filterMap (fun w => (g w).map (fun d => (w, d))) := by
        rw [List.filterMap_cons, hg]
        rfl
      have hy : y ∉ keys acc := hdisj y (List.mem_cons_self _ _)
      rw [List.foldl_cons, h1, hfm, dinsert_of_not_mem _ hy]
      rw [ih (acc ++ [(y, d)]) hnd.2 ?_]
      · rw [List.append_assoc]
        rfl
      · intro z hz hzmem
        rw [keys, List.map_append] at hzmem
        rcases List.mem_append.mp hzmem with h2 | h2
        · exact hdisj z (List.mem_cons_of_mem _ hz) h2
        · simp at h2
          exact hnd.1 (h2 ▸ hz)

theorem lookup_filterMap (g : ℤ → Option ℤ) : ∀ (ys : List ℤ), ys.Nodup → ∀ y : ℤ,
    List.lookup y (ys.filterMap (fun z => (g z).map (fun d => (z, d)))) =
      if y ∈ ys then g y else none := by
  intro ys
  induction ys with
  | nil => intro _ y; simp
  | cons z ys ih =>
    intro hnd y
    rw [List.nodup_cons] at hnd
    cases hg : g z with
    | none =>
      have hfm : (z :: ys).filterMap (fun w => (g w).map (fun d => (w, d))) =
          ys.filterMap (fun w => (g w).map (fun d => (w, d))) := by
        rw [List.filterMap_cons, hg]
        rfl
      rw [hfm, ih hnd.2 y]
      by_cases hyz : y = z
      · subst hyz
        simp [hnd.1, hg]
      · simp [List.mem_cons, hyz]
    | some d =>
      have hfm : (z :: ys).filterMap (fun w => (g w).map (fun d => (w, d))) =
          (z, d) :: ys.filterMap (fun w => (g w).map (fun d => (w, d))) := by
        rw [List.filterMap_cons, hg]
        rfl
      rw [hfm]
      by_cases hyz : y = z
      · subst hyz
        simp [List.lookup, hg]
      · have hbeq : (y == z) = false := by
          simp [hyz]
        simp only [List.lookup, hbeq]
        rw [ih hnd.2 y]
        simp [List.mem_cons, hyz]

theorem glys_eq_filterMap (VE : ℤ → ℤ) (moons : List ℤ) (sy ey : ℤ) :
    get_lunar_year_starts VE moons sy ey =
      (years_list sy ey).filterMap
        (fun y => (year_start_for (List.insertionSort (· ≤ ·) moons) (VE y)).map
          (fun d => (y, d))) :=
  foldl_year_step_eq_filterMap
    (fun y => year_start_for (List.insertionSort (· ≤ ·) moons) (VE y))
    (years_list sy ey) [] (years_list_nodup sy ey)
    (fun y _ h => by simp [keys] at h)

theorem lookup_glys (VE : ℤ → ℤ) (moons : List ℤ) (sy ey y : ℤ) :
    List.lookup y (get_lunar_year_starts VE moons sy ey) =
      if y ∈ years_list sy ey
      then year_start_for (List.insertionSort (· ≤ ·) moons) (VE y)
      else none := by
  rw [glys_eq_filterMap]
  exact lookup_filterMap _ _ (years_list_nodup sy ey) y

/-- C4 (amended): for each requested year with at least one new moon
strictly before that year's vernal equinox, Nisan 1 is chosen between the
latest new moon strictly before the equinox and the earliest new moon on
or after it; the earlier candidate is kept exactly when its Passover
(13 days after it) is at most 20 days before the equinox (`<=`, not `<`),
and otherwise the later candidate is used, falling back to the earlier
one when no later new moon exists. -/
theorem get_lunar_year_starts_rule (VE : ℤ → ℤ) (moons : List ℤ) (sy ey y b : ℤ)
    (h1 : sy ≤ y) (h2 : y ≤ ey)
    (hb : ((List.insertionSort (· ≤ ·) moons).filter
            (fun m => decide (m < VE y))).getLast? = some b) :
    List.lookup y (get_lunar_year_starts VE moons sy ey) =
      some (if VE y - (b + 13) ≤ 20 then b
            else ((List.insertionSort (· ≤ ·) moons).filter
                    (fun m => ! decide (m < VE y))).head?.getD b) := by
  rw [lookup_glys, if_pos ((mem_years_list sy ey y).mpr ⟨h1, h2⟩)]
  rw [year_start_for, find_bracket_eq (VE y) _ none (List.sorted_insertionSort _ _), hb]
  cases ha : ((List.insertionSort (· ≤ ·) moons).filter
      (fun m => ! decide (m < VE y))).head? with
  | none => rfl
  | some a => rfl

/-- Witness for C4 at a concrete equinox model and moon list: the vernal
equinox is day 100, the moons are 50 and 120; Passover for the earlier
candidate would be day 63, which is 37 > 20 days before the equinox, so
the later candidate 120 becomes Nisan 1. -/
theorem get_lunar_year_starts_rule_witness :
    List.lookup 0 (get_lunar_year_starts (fun _ => 100) [50, 120] 0 0) =
      some (if (100 : ℤ) - (50 + 13) ≤ 20 then 50
            else ((List.insertionSort (· ≤ ·) [(50 : ℤ), 120]).filter
                    (fun m => ! decide (m < (100 : ℤ)))).head?.getD 50) :=
  get_lunar_year_starts_rule (fun _ => 100) [50, 120] 0 0 0 50
    (by decide) (by decide) (by decide)

/-- Modelled from the spec sentence of C4: the two candidates bracket the
equinox with one new moon *on or before* it and one *strictly after* it;
the rest of the rule (Passover at most 20 days before the equinox keeps
the earlier candidate) is unchanged.  Used only to exhibit where this
reading differs from the code. -/
def year_start_for_claim (sorted : List ℤ) (ve : ℤ) : Option ℤ :=
  match (sorted.filter (fun m => decide (m ≤ ve))).getLast? with
  | none => none
  | some b =>
    some (if ve - (b + 13) ≤ 20 then b
          else ((sorted.filter (fun m => decide (ve < m))).head?.getD b))

/-- C4 counterexample: with new moons on days 0 and 30 and the vernal
equinox on day 30, the code treats the moon on the equinox day as the
*after* candidate (its bracketing is strictly-before / on-or-after) and
chooses day 0, while the claim's bracketing (on-or-before /
strictly-after) would make day 30 the earlier candidate and choose it:
the two disagree, so the claim's bracketing is not the code's. -/
theorem get_lunar_year_starts_bracket_counterexample :
    List.lookup 5 (get_lunar_year_starts (fun _ => 30) [0, 30] 5 5) = some 0 ∧
    year_start_for_claim [0, 30] 30 = some 30 ∧
    ¬ ((0 : ℤ) = 30) :=
  ⟨by decide, by decide, by decide⟩

theorem keys_filterMap_sublist (g : ℤ → Option ℤ) : ∀ ys : List ℤ,
    List.Sublist (keys (ys.filterMap (fun z => (g z).map (fun d => (z, d))))) ys := by
  intro ys
  induction ys with
  | nil => simp [keys]
  | cons z ys ih =>
    cases hg : g z with
    | none =>
      have hfm : (z :: ys).filterMap (fun w => (g w).map (fun d => (w, d))) =
          ys.filterMap (fun w => (g w).map (fun d => (w, d))) := by
        rw [List.filterMap_cons, hg]
        rfl
      rw [hfm]
      exact ih.cons z
    | some d =>
      have hfm : (z :: ys).filterMap (fun w => (g w).map (fun d => (w, d))) =
          (z, d) :: ys.filterMap (fun w => (g w).map (fun d => (w, d))) := by
        rw [List.filterMap_cons, hg]
        rfl
      rw [hfm, keys_cons]
      exact ih.cons₂ z

theorem year_start_for_mem (sorted : List ℤ) (ve d : ℤ)
    (h : year_start_for sorted ve = some d) : d ∈ sorted := by
  rw [year_start_for] at h
  rcases hp : find_bracket ve sorted none with ⟨b?, a?⟩
  rw [hp] at h
  cases b? with
  | none => exact absurd h (by simp)
  | some b =>
    have hbmem : b ∈ sorted := by
      rcases find_bracket_fst_mem ve sorted none b (by rw [hp]) with h1 | h1
      · exact absurd h1 (by simp)
      · exact h1
    cases a? with
    | none =>
      have hval : (if ve - (b + 13) ≤ 20 then b else b) = d := Option.some.inj h
      split_ifs at hval <;> exact hval ▸ hbmem
    | some a =>
      have hamem : a ∈ sorted := find_bracket_snd_mem ve sorted none a (by rw [hp])
      have hval : (if ve - (b + 13) ≤ 20 then b else a) = d := Option.some.inj h
      split_ifs at hval
      · exact hval ▸ hbmem
      · exact hval ▸ hamem

theorem year_start_for_isSome (sorted : List ℤ) (ve : ℤ) :
    (year_start_for sorted ve).isSome = (find_bracket ve sorted none).1.isSome := by
  rw [year_start_for]
  rcases hp : find_bracket ve sorted none with ⟨b?, a?⟩
  cases b? <;> rfl

/-- C5 (amended): `get_lunar_year_starts` returns at most one anchor per
year (its year keys are distinct); every returned anchor belongs to a
requested year and its Nisan 1 date is a member of the supplied new-moon
sequence; and a requested year receives an anchor exactly when some
supplied new moon falls strictly before that year's vernal equinox —
years with no such new moon are skipped, so the mapping need not contain
an entry for every requested year. -/
theorem get_lunar_year_starts_anchor_props (VE : ℤ → ℤ) (moons : List ℤ) (sy ey : ℤ) :
    (keys (get_lunar_year_starts VE moons sy ey)).Nodup ∧
    (∀ y d, List.lookup y (get_lunar_year_starts VE moons sy ey) = some d →
      sy ≤ y ∧ y ≤ ey ∧ d ∈ moons) ∧
    (∀ y, sy ≤ y → y ≤ ey →
      ((List.lookup y (get_lunar_year_starts VE moons sy ey)).isSome ↔
        ∃ m ∈ moons, m < VE y)) := by
  have hperm := List.perm_insertionSort (· ≤ ·) moons
  refine ⟨?_, ?_, ?_⟩
  · rw [glys_eq_filterMap]
    exact (years_list_nodup sy ey).sublist (keys_filterMap_sublist _ _)
  · intro y d h
    rw [lookup_glys] at h
    split_ifs at h with hy
    obtain ⟨h1, h2⟩ := (mem_years_list sy ey y).mp hy
    exact ⟨h1, h2, hperm.mem_iff.mp (year_start_for_mem _ _ _ h)⟩
  · intro y h1 h2
    rw [lookup_glys, if_pos ((mem_years_list sy ey y).mpr ⟨h1, h2⟩),
      year_start_for_isSome,
      find_bracket_fst_isSome_iff (VE y) _ (List.sorted_insertionSort _ _)]
    constructor
    · rintro ⟨m, hm, hlt⟩
      exact ⟨m, hperm.mem_iff.mp hm, hlt⟩
    · rintro ⟨m, hm, hlt⟩
      exact ⟨m, hperm.mem_iff.mpr hm, hlt⟩

/-- Witness for C5 at a concrete equinox model and moon list. -/
theorem get_lunar_year_starts_anchor_props_witness :
    (keys (get_lunar_year_starts (fun _ => 100) [50] 0 0)).Nodup ∧
    ((List.lookup 0 (get_lunar_year_starts (fun _ => 100) [50] 0 0)).isSome ↔
      ∃ m ∈ [(50 : ℤ)], m < 100) :=
  ⟨(get_lunar_year_starts_anchor_props (fun _ => 100) [50] 0 0).1,
   (get_lunar_year_starts_anchor_props (fun _ => 100) [50] 0 0).2.2 0
     (by decide) (by decide)⟩

/-- C5 counterexample: year 7 is requested (7 ≤ 7) but the only supplied
new moon (day 100) is not strictly before the vernal equinox (day 50), so
the year is skipped: the returned mapping has no anchor for year 7,
contradicting "exactly one anchor entry for every civil year". -/
theorem get_lunar_year_starts_skips_year :
    (7 : ℤ) ≤ 7 ∧
    List.lookup 7 (get_lunar_year_starts (fun _ => 50) [100] 7 7) = none :=
  ⟨by decide, by decide⟩

/-- A feast definition (src/moon.py lines 51-58): nominal lunar month
(1-based from Nisan), 1-based day offsets within the month, and the name.
The purely descriptive fields (description, scripture references, link)
play no role in any computation and are omitted. -/
structure FeastDay where
  lunar_month : ℕ
  days : List ℤ
  name : String
  deriving DecidableEq, Repr

/-- `FeastDays.PASSOVER` (src/moon.py line 62). -/
def PASSOVER : FeastDay :=
  { lunar_month := 1, days := [14], name := "Passover (Pesach)" }

/-- `FeastDays.UNLEAVENED_BREAD` (src/moon.py line 63). -/
def UNLEAVENED_BREAD : FeastDay :=
  { lunar_month := 1, days := [15, 16, 17, 18, 19, 20, 21],
    name := "Feast of Unleavened Bread" }

/-- `FeastDays.FEAST_OF_WEEKS` (src/moon.py line 65). -/
def FEAST_OF_WEEKS : FeastDay :=
  { lunar_month := 1, days := [50], name := "Feast of Weeks (Shavuot)" }

/-- `FeastDays.FEAST_OF_TRUMPETS` (src/moon.py line 66). -/
def FEAST_OF_TRUMPETS : FeastDay :=
  { lunar_month := 7, days := [1], name := "Feast of Trumpets (Rosh Hashanah)" }

/-- `FeastDays.DAY_OF_ATONEMENT` (src/moon.py line 67). -/
def DAY_OF_ATONEMENT : FeastDay :=
  { lunar_month := 7, days := [10], name := "Day of Atonement (Yom Kippur)" }

/-- `FeastDays.FEAST_OF_TABERNACLES` (src/moon.py line 68). -/
def FEAST_OF_TABERNACLES : FeastDay :=
  { lunar_month := 7, days := [15, 16, 17, 18, 19, 20, 21, 22],
    name := "Feast of Tabernacles (Sukkot)" }

/-- `FeastDays.PURIM` (src/moon.py line 69). -/
def PURIM : FeastDay :=
  { lunar_month := 12, days := [14, 15], name := "Purim" }

/-- `FeastDays.FEAST_OF_DEDICATION` (src/moon.py line 70). -/
def FEAST_OF_DEDICATION : FeastDay :=
  { lunar_month := 9, days := [25, 26, 27, 28, 29, 30, 31, 32],
    name := "Hanukkah (Feast of Dedication)" }

/-- The `FeastDays` enum members in definition order (the order of
`for fd in FeastDays`). -/
def feast_registry : List FeastDay :=
  [PASSOVER, UNLEAVENED_BREAD, FEAST_OF_WEEKS, FEAST_OF_TRUMPETS,
   DAY_OF_ATONEMENT, FEAST_OF_TABERNACLES, PURIM, FEAST_OF_DEDICATION]

/-- The Nisan index search of `_find_feast_days_from_moons` (src/moon.py
lines 98-109): the first moon whose date equals Nisan 1, else the first
moon within one day of it. -/
def nisan_index (nisan : ℤ) (sorted : List ℤ) : Option ℕ :=
  match sorted.findIdx? (fun m => decide (m = nisan)) with
  | some i => some i
  | none => sorted.findIdx? (fun m => decide ((m - nisan).natAbs ≤ 1))

/-- The leap-year decision of `_find_feast_days_from_moons` (src/moon.py
lines 120-137): when both Tishri candidates (6 and 7 new moons after
Nisan) exist, the month offset is 1 exactly when the 7-month candidate
falls on or before the autumn equinox and within 5 days of it.
`autumn_eq` is the (astropy-backed, hence parameterised) autumn equinox
date of the Nisan year. -/
def leap_offset (sorted : List ℤ) (nidx : ℕ) (autumn_eq : ℤ) : ℕ :=
  if nidx + 6 < sorted.length ∧ nidx + 7 < sorted.length then
    if 0 ≤ autumn_eq - sorted.getD (nidx + 7) 0 ∧
        autumn_eq - sorted.getD (nidx + 7) 0 ≤ 5 then 1 else 0
  else 0

/-- The effective 0-based month index of a feast (src/moon.py lines
143-147): months ≥ 7 are shifted by the leap offset. -/
def month_idx (nidx loff : ℕ) (fd : FeastDay) : ℕ :=
  if 7 ≤ fd.lunar_month then nidx + fd.lunar_month - 1 + loff
  else nidx + fd.lunar_month - 1

/-- The result-building loops of `_find_feast_days_from_moons`
(src/moon.py lines 139-157): for each feast whose effective month index
is in range, each day offset maps `month_start + (day - 1)` to the feast;
out-of-range feasts are skipped. -/
def project_feasts (sorted : List ℤ) (nidx loff : ℕ) : List (ℤ × FeastDay) :=
  feast_registry.foldl
    (fun acc fd =>
      if month_idx nidx loff fd < sorted.length then
        fd.days.foldl
          (fun acc2 day => dinsert (sorted.getD (month_idx nidx loff fd) 0 + (day - 1)) fd acc2)
          acc
      else acc)
    []

/-- `FeastDays._find_feast_days_from_moons(nisan_new_moon, new_moons)`
(src/moon.py lines 87-157), with the autumn equinox of the Nisan year as
a parameter. -/
def find_feast_days_from_moons (nisan : ℤ) (new_moons : List ℤ) (autumn_eq : ℤ) :
    List (ℤ × FeastDay) :=
  let sorted := List.insertionSort (· ≤ ·) new_moons
  match nisan_index nisan sorted with
  | none => []
  | some i => project_feasts sorted i (leap_offset sorted i autumn_eq)

/-- The 2024-25 lunation onsets used by the repository's own reference
tests (src/test_reference_comparison.py), from Nisan (2024-03-09) on. -/
def moons24 : List ℤ :=
  [days_from_civil 2024 3 9, days_from_civil 2024 4 8, days_from_civil 2024 5 7,
   days_from_civil 2024 6 5, days_from_civil 2024 7 5, days_from_civil 2024 8 3,
   days_from_civil 2024 9 2, days_from_civil 2024 10 2, days_from_civil 2024 10 31,
   days_from_civil 2024 11 30, days_from_civil 2024 12 30]

/-- C6: with enough computed new moons (the 7-new-moons-after-Nisan index
exists), the year is decided leap (month offset 1) exactly when that
candidate Tishrei new moon falls on or before the autumn equinox and at
most 5 days before it; otherwise the offset is 0 (a regular year). -/
theorem leap_offset_iff (sorted : List ℤ) (nidx : ℕ) (ae : ℤ)
    (h7 : nidx + 7 < sorted.length) :
    (leap_offset sorted nidx ae = 1 ↔
      sorted.getD (nidx + 7) 0 ≤ ae ∧ ae - sorted.getD (nidx + 7) 0 ≤ 5) ∧
    (leap_offset sorted nidx ae = 1 ∨ leap_offset sorted nidx ae = 0) := by
  unfold leap_offset
  rw [if_pos (by omega : nidx + 6 < sorted.length ∧ nidx + 7 < sorted.length)]
  split_ifs with hc
  · refine ⟨⟨fun _ => ?_, fun _ => rfl⟩, Or.inl rfl⟩
    omega
  · rw [not_and_or] at hc
    refine ⟨⟨fun h => ?_, fun h => ?_⟩, Or.inr rfl⟩
    · exact absurd h (by decide)
    · rcases hc with hc | hc
      · exact absurd (by omega : (0 : ℤ) ≤ ae - sorted.getD (nidx + 7) 0) hc
      · exact absurd (by omega : ae - sorted.getD (nidx + 7) 0 ≤ 5) hc

/-- Witness for C6 on the repository's own 2024 reference moons: the
7-month Tishrei candidate (2024-10-02) falls after the autumn equinox
(2024-09-22), so 2024 is not leap. -/
theorem leap_offset_iff_witness :
    0 + 7 < moons24.length ∧
    (leap_offset moons24 0 (days_from_civil 2024 9 22) = 1 ↔
      moons24.getD (0 + 7) 0 ≤ days_from_civil 2024 9 22 ∧
      days_from_civil 2024 9 22 - moons24.getD (0 + 7) 0 ≤ 5) :=
  ⟨by decide, (leap_offset_iff moons24 0 (days_from_civil 2024 9 22) (by decide)).1⟩

/-- C7 counterexample: with Nisan 1 = 2024-03-09 a member of the supplied
new-moon sequence, the feast projection places Passover (month 1, day 14,
day 1 = the new moon itself) on 2024-03-22, not 2024-03-23; 2024-03-23 is
day 15, the first day of Unleavened Bread.  (The repository's reference
value 2024-03-23 corresponds to its *calculated* Nisan of 2024-03-10, and
to the hard-coded answer table in the draft `add_months_and_days` of
src/src/HebrewCalendar/moon.py, not to this projection at 2024-03-09.) -/
theorem passover_2024_not_march_23 :
    List.lookup (days_from_civil 2024 3 23)
        (find_feast_days_from_moons (days_from_civil 2024 3 9) moons24
          (days_from_civil 2024 9 22)) = some UNLEAVENED_BREAD ∧
    UNLEAVENED_BREAD ≠ PASSOVER := by
  refine ⟨by decide, by decide⟩

/-- C7 (amended): with Nisan 1 = 2024-03-09, the projection yields
Passover on 2024-03-22, and (matching the spec's other 2024 scenario
values and the repository's passing tests) the Day of Atonement (month 7,
day 10) on 2024-09-11 and the start of Tabernacles (month 7, day 15) on
2024-09-16. -/
theorem passover_2024_march_22 :
    List.lookup (days_from_civil 2024 3 22)
        (find_feast_days_from_moons (days_from_civil 2024 3 9) moons24
          (days_from_civil 2024 9 22)) = some PASSOVER ∧
    List.lookup (days_from_civil 2024 9 11)
        (find_feast_days_from_moons (days_from_civil 2024 3 9) moons24
          (days_from_civil 2024 9 22)) = some DAY_OF_ATONEMENT ∧
    List.lookup (days_from_civil 2024 9 16)
        (find_feast_days_from_moons (days_from_civil 2024 3 9) moons24
          (days_from_civil 2024 9 22)) = some FEAST_OF_TABERNACLES := by
  refine ⟨by decide, by decide, by decide⟩

theorem mem_keys_days_foldl (fd : FeastDay) (base : ℤ) :
    ∀ (ds : List ℤ) (acc : List (ℤ × FeastDay)) (x : ℤ),
    x ∈ keys (ds.foldl (fun acc2 day => dinsert (base + (day - 1)) fd acc2) acc) ↔
      x ∈ keys acc ∨ ∃ d ∈ ds, x = base + (d - 1) := by
  intro ds
  induction ds with
  | nil => intro acc x; simp
  | cons d ds ih =>
    intro acc x
    rw [List.foldl_cons, ih, mem_keys_dinsert]
    constructor
    · rintro ((h | h) | ⟨d2, hd2, he⟩)
      · exact Or.inr ⟨d, List.mem_cons_self _ _, h⟩
      · exact Or.inl h
      · exact Or.inr ⟨d2, List.mem_cons_of_mem _ hd2, he⟩
    · rintro (h | ⟨d2, hd2, he⟩)
      · exact Or.inl (Or.inr h)
      · rcases List.mem_cons.mp hd2 with rfl | hd2
        · exact Or.inl (Or.inl he)
        · exact Or.inr ⟨d2, hd2, he⟩

theorem mem_keys_feast_foldl (sorted : List ℤ) (nidx loff : ℕ) :
    ∀ (fds : List FeastDay) (acc : List (ℤ × FeastDay)) (x : ℤ),
    x ∈ keys (fds.foldl
        (fun acc fd =>
          if month_idx nidx loff fd < sorted.length then
            fd.days.foldl
              (fun acc2 day =>
                dinsert (sorted.getD (month_idx nidx loff fd) 0 + (day - 1)) fd acc2)
              acc
          else acc)
        acc) ↔
      x ∈ keys acc ∨
        ∃ fd ∈ fds, month_idx nidx loff fd < sorted.length ∧
          ∃ d ∈ fd.days, x = sorted.getD (month_idx nidx loff fd) 0 + (d - 1) := by
  intro fds
  induction fds with
  | nil => intro acc x; simp
  | cons fd fds ih =>
    intro acc x
    rw [List.foldl_cons]
    by_cases hg : month_idx nidx loff fd < sorted.length
    · rw [if_pos hg, ih, mem_keys_days_foldl]
      constructor
      · rintro ((h | ⟨d, hd, he⟩) | ⟨fd2, hfd2, hg2, hrest⟩)
        · exact Or.inl h
        · exact Or.inr ⟨fd, List.mem_cons_self _ _, hg, d, hd, he⟩
        · exact Or.inr ⟨fd2, List.mem_cons_of_mem _ hfd2, hg2, hrest⟩
      · rintro (h | ⟨fd2, hfd2, hg2, hrest⟩)
        · exact Or.inl (Or.inl h)
        · rcases List.mem_cons.mp hfd2 with rfl | hfd2
          · exact Or.inl (Or.inr hrest)
          · exact Or.inr ⟨fd2, hfd2, hg2, hrest⟩
    · rw [if_neg hg, ih]
      constructor
      · rintro (h | ⟨fd2, hfd2, hg2, hrest⟩)
        · exact Or.inl h
        · exact Or.inr ⟨fd2, List.mem_cons_of_mem _ hfd2, hg2, hrest⟩
      · rintro (h | ⟨fd2, hfd2, hg2, hrest⟩)
        · exact Or.inl h
        · rcases List.mem_cons.mp hfd2 with rfl | hfd2
          · exact absurd hg2 hg
          · exact Or.inr ⟨fd2, hfd2, hg2, hrest⟩

/-- C8 (amended): the feast projection never raises an "insufficient
lunar data" error — it is total — and a date is a key of the returned
mapping exactly when it comes from a feast definition whose effective
month index (Nisan index + nominal month − 1, +1 for nominal months ≥ 7
by the leap offset) is within the computed new-moon sequence.  Feasts
whose index is out of range are therefore silently omitted, while every
in-range feast's dates are present. -/
theorem project_feasts_keys (sorted : List ℤ) (nidx loff : ℕ) (x : ℤ) :
    x ∈ keys (project_feasts sorted nidx loff) ↔
      ∃ fd ∈ feast_registry, month_idx nidx loff fd < sorted.length ∧
        ∃ d ∈ fd.days, x = sorted.getD (month_idx nidx loff fd) 0 + (d - 1) := by
  rw [project_feasts, mem_keys_feast_foldl]
  simp [keys]

/-- C8 counterexample: with only one computed new moon, the month-7
feasts (index 6, out of range) are silently absent from the returned
mapping — the projection returns normally (with the in-range Passover
projected) instead of failing with a recoverable error. -/
theorem insufficient_moons_silently_omits :
    List.lookup (days_from_civil 2024 3 22)
        (find_feast_days_from_moons (days_from_civil 2024 3 9)
          [days_from_civil 2024 3 9] 0) = some PASSOVER ∧
    ∀ p ∈ find_feast_days_from_moons (days_from_civil 2024 3 9)
        [days_from_civil 2024 3 9] 0,
      p.2 ≠ FEAST_OF_TRUMPETS := by
  refine ⟨by decide, by decide⟩
